import Mathlib

/-!
Verification of the `dropbox` client library (files.go, error.go).

The development shallowly embeds the content-hash algorithm (`ContentHash`,
`FileContentHash`), the upload write-mode helpers (`UploadInput.SetMode`,
`UploadInput.GetMode`) and the metadata classification predicates
(`Metadata.IsFile` / `IsFolder` / `IsDeleted`) from `files.go`.

Bytes are modelled as `Nat` (with bounds `< 256` stated where they matter).
A Go `io.Reader` is modelled as the list of results its successive `Read`
calls deliver: each result is the byte slice filled into the 4 MiB buffer
together with the accompanying error value (`nil`, `io.EOF`, or another
error).  An exhausted list corresponds to a reader that returns `(0, io.EOF)`.
SHA-256 (`crypto/sha256`, an external library) is an abstract parameter
`sha : List Nat → List Nat`; the streaming `resultHash` context is modelled
by the list of bytes written to it, digested once at the end.
-/

namespace Dropbox

/-- `hashBlockSize = 4 * 1024 * 1024` from files.go. -/
def hashBlockSize : Nat := 4 * 1024 * 1024

/-- Error value accompanying a `Read` result: `io.EOF` or any other error
(identified by a numeric code). `Option GoError` with `none` models `nil`. -/
inductive GoError where
  | eof : GoError
  | other : Nat → GoError
deriving DecidableEq, Repr

/-- One result of a `Read(buf)` call with the 4 MiB buffer: the bytes read
and the error value returned alongside them. -/
structure ReadRes where
  data : List Nat
  err : Option GoError
deriving DecidableEq, Repr

/-- Error returned by the hash functions: a file-open failure (from
`os.Open` in `FileContentHash`) or a stream-read failure (propagated by
`ContentHash`).  The two arise from disjoint code paths. -/
inductive HashErr where
  | openErr : Nat → HashErr
  | readErr : Nat → HashErr
deriving DecidableEq, Repr

/-- The read-hash loop of `ContentHash` (files.go lines 761-783).  Each
iteration performs `n, err = r.Read(buf)`; a non-EOF error aborts with that
error; otherwise, when `n > 0`, `sha256.Sum256(buf[:n])` is appended to the
`resultHash` accumulator; the loop continues only while
`n == hashBlockSize && err == nil`.  The first read and the loop body run
identical code, so a single recursion over the remaining read results is
faithful.  `acc` is the byte sequence written to `resultHash` so far. -/
def contentHashGo (sha : List Nat → List Nat) : List ReadRes → List Nat → Except Nat (List Nat)
  | [], acc => Except.ok acc
  | r :: rest, acc =>
    match r.err with
    | some (GoError.other e) => Except.error e
    | some GoError.eof =>
      Except.ok (if 0 < r.data.length then acc ++ sha r.data else acc)
    | none =>
      let acc2 := if 0 < r.data.length then acc ++ sha r.data else acc
      if r.data.length = hashBlockSize then contentHashGo sha rest acc2
      else Except.ok acc2

/-- One lowercase hex digit, as produced by `fmt.Sprintf("%x", ...)`. -/
def hexDigit (n : Nat) : Char :=
  if n < 10 then Char.ofNat (48 + n) else Char.ofNat (87 + n)

/-- The two lowercase hex digits of one byte. -/
def hexByte (b : Nat) : List Char :=
  [hexDigit (b / 16), hexDigit (b % 16)]

/-- `fmt.Sprintf("%x", bs)`: lowercase hex encoding of a byte sequence. -/
def hexEncode (bs : List Nat) : String :=
  String.mk ((bs.map hexByte).flatten)

/-- `ContentHash` (files.go lines 761-783): runs the read-hash loop starting
from an empty accumulator and returns `("", err)` on a read failure, or
`(fmt.Sprintf("%x", resultHash.Sum(nil)), nil)` on success. -/
def contentHash (sha : List Nat → List Nat) (reads : List ReadRes) : String × Option HashErr :=
  match contentHashGo sha reads [] with
  | Except.error e => ("", some (HashErr.readErr e))
  | Except.ok acc => (hexEncode (sha acc), none)

/-- `FileContentHash` (files.go lines 787-794): `os.Open` is modelled by a
map `fs` from file names to either an open error or the read results the
opened file delivers.  On open failure it returns `("", err)` before any
hashing; otherwise it delegates to `ContentHash`. -/
def FileContentHash (sha : List Nat → List Nat)
    (fs : String → Except Nat (List ReadRes)) (filename : String) :
    String × Option HashErr :=
  match fs filename with
  | Except.error e => ("", some (HashErr.openErr e))
  | Except.ok reads => contentHash sha reads

/-- The blocks of a byte content, split at `hashBlockSize`. -/
def chunksOf (content : List Nat) : List (List Nat) :=
  if h : content = [] then []
  else content.take hashBlockSize :: chunksOf (content.drop hashBlockSize)
termination_by content.length
decreasing_by
  have hp : 0 < content.length := List.length_pos.mpr h
  simp only [List.length_drop, hashBlockSize]
  omega

/-- A well-behaved reader over `content` that fills the 4 MiB buffer on
every read (`bytes.Reader`-style): one error-free read per block, then
`(0, io.EOF)` once exhausted. -/
def chunkReads (content : List Nat) : List ReadRes :=
  (chunksOf content).map (fun c => ReadRes.mk c none)

/-- A reader that delivers `content` one byte per read, error-free. -/
def byteReads (content : List Nat) : List ReadRes :=
  content.map (fun b => ReadRes.mk [b] none)

/-- The accumulator `ContentHash` builds for `content` delivered in full
blocks: the concatenation of the per-block digests, in stream order. -/
def accJoin (sha : List Nat → List Nat) (content : List Nat) : List Nat :=
  ((chunksOf content).map sha).flatten

/-- Concrete 32-byte stand-in digest function used to instantiate the
abstract `sha` parameter in witnesses: the input length modulo 256 followed
by 31 zero bytes. -/
def sha32 (bs : List Nat) : List Nat :=
  bs.length % 256 :: List.replicate 31 0

/-- Identity stand-in digest function (used to exhibit concrete outputs). -/
def shaId (bs : List Nat) : List Nat := bs

/-- Concrete file system used in witnesses: `"ok"` opens to an empty stream,
everything else fails to open with error code 5. -/
def fs0 (filename : String) : Except Nat (List ReadRes) :=
  if filename = "ok" then Except.ok [] else Except.error 5

lemma chunksOf_nil : chunksOf [] = [] := by
  rw [chunksOf]
  simp

lemma chunksOf_cons (content : List Nat) (h : content ≠ []) :
    chunksOf content =
      content.take hashBlockSize :: chunksOf (content.drop hashBlockSize) := by
  rw [chunksOf]
  simp [h]

lemma chunksOf_small (content : List Nat) (h1 : content ≠ [])
    (h2 : content.length ≤ hashBlockSize) : chunksOf content = [content] := by
  rw [chunksOf_cons content h1, List.take_of_length_le h2,
    List.drop_eq_nil_of_le h2, chunksOf_nil]

lemma accJoin_nil (sha : List Nat → List Nat) : accJoin sha [] = [] := by
  simp [accJoin, chunksOf_nil]

lemma accJoin_small (sha : List Nat → List Nat) (content : List Nat)
    (h1 : content ≠ []) (h2 : content.length ≤ hashBlockSize) :
    accJoin sha content = sha content := by
  simp [accJoin, chunksOf_small content h1 h2]

lemma accJoin_cons (sha : List Nat → List Nat) (content : List Nat) (h : content ≠ []) :
    accJoin sha content =
      sha (content.take hashBlockSize) ++ accJoin sha (content.drop hashBlockSize) := by
  simp [accJoin, chunksOf_cons content h]

lemma contentHashGo_nil (sha : List Nat → List Nat) (acc : List Nat) :
    contentHashGo sha [] acc = Except.ok acc := rfl

lemma contentHashGo_cons_none (sha : List Nat → List Nat) (d : List Nat)
    (rest : List ReadRes) (acc : List Nat) :
    contentHashGo sha (ReadRes.mk d none :: rest) acc =
      if d.length = hashBlockSize
      then contentHashGo sha rest (if 0 < d.length then acc ++ sha d else acc)
      else Except.ok (if 0 < d.length then acc ++ sha d else acc) := rfl

lemma contentHashGo_eofRead (sha : List Nat → List Nat) (rest : List ReadRes)
    (acc : List Nat) :
    contentHashGo sha (ReadRes.mk [] (some GoError.eof) :: rest) acc =
      Except.ok acc := rfl

/-- Running the read-hash loop on a full-block reader over `content`
followed by arbitrary further read results `tail`: every block of `content`
is digested into the accumulator; the loop continues into `tail` exactly
when `content` splits into full blocks only. -/
lemma run_chunks (sha : List Nat → List Nat) (tail : List ReadRes) :
    ∀ content acc, contentHashGo sha (chunkReads content ++ tail) acc =
      if content.length % hashBlockSize = 0
      then contentHashGo sha tail (acc ++ accJoin sha content)
      else Except.ok (acc ++ accJoin sha content) := by
  intro content
  induction content using chunksOf.induct with
  | case1 =>
    intro acc
    simp [chunkReads, chunksOf_nil, accJoin_nil]
  | case2 c hc ih =>
    intro acc
    have hbs : 0 < hashBlockSize := by simp [hashBlockSize]
    have hpos : 0 < c.length := List.length_pos.mpr hc
    have hcr : chunkReads c =
        ReadRes.mk (c.take hashBlockSize) none :: chunkReads (c.drop hashBlockSize) := by
      simp [chunkReads, chunksOf_cons c hc]
    rw [hcr, List.cons_append, contentHashGo_cons_none]
    have htlen : (c.take hashBlockSize).length = min hashBlockSize c.length :=
      List.length_take _ _
    have htpos : 0 < (c.take hashBlockSize).length := by
      rw [htlen]
      exact lt_min hbs hpos
    rw [if_pos htpos]
    by_cases hle : hashBlockSize ≤ c.length
    · have hfull : (c.take hashBlockSize).length = hashBlockSize := by
        rw [htlen]
        exact min_eq_left hle
      rw [if_pos hfull, ih]
      have hmod : (c.drop hashBlockSize).length % hashBlockSize =
          c.length % hashBlockSize := by
        rw [List.length_drop]
        exact (Nat.mod_eq_sub_mod hle).symm
      rw [hmod, accJoin_cons sha c hc, ← List.append_assoc]
    · have hlt : c.length < hashBlockSize := Nat.lt_of_not_le hle
      have hnfull : (c.take hashBlockSize).length ≠ hashBlockSize := by
        rw [htlen, min_eq_right (Nat.le_of_lt hlt)]
        exact Nat.ne_of_lt hlt
      rw [if_neg hnfull]
      have hmod : c.length % hashBlockSize = c.length := Nat.mod_eq_of_lt hlt
      rw [hmod, if_neg (Nat.pos_iff_ne_zero.mp hpos),
        List.take_of_length_le (Nat.le_of_lt hlt),
        accJoin_small sha c hc (Nat.le_of_lt hlt)]

/-- The read-hash loop on a full-block reader alone: every block digested,
success. -/
lemma contentHashGo_chunkReads (sha : List Nat → List Nat) (content : List Nat)
    (acc : List Nat) :
    contentHashGo sha (chunkReads content) acc =
      Except.ok (acc ++ accJoin sha content) := by
  have h := run_chunks sha [] content acc
  rw [List.append_nil] at h
  rw [h]
  by_cases hm : content.length % hashBlockSize = 0
  · rw [if_pos hm, contentHashGo_nil]
  · rw [if_neg hm]

/-- Same, with an explicit trailing `(0, io.EOF)` read after the blocks:
the zero-byte end-of-stream read contributes nothing. -/
lemma contentHashGo_chunkReads_eof (sha : List Nat → List Nat) (content : List Nat)
    (acc : List Nat) :
    contentHashGo sha (chunkReads content ++ [ReadRes.mk [] (some GoError.eof)]) acc =
      Except.ok (acc ++ accJoin sha content) := by
  rw [run_chunks]
  by_cases hm : content.length % hashBlockSize = 0
  · rw [if_pos hm, contentHashGo_eofRead]
  · rw [if_neg hm]

/-- `ContentHash` on a full-block reader over `content`. -/
lemma contentHash_chunkReads (sha : List Nat → List Nat) (content : List Nat) :
    contentHash sha (chunkReads content) =
      (hexEncode (sha (accJoin sha content)), none) := by
  simp [contentHash, contentHashGo_chunkReads]

/-- `c` is one of the sixteen lowercase hexadecimal digits: a decimal digit
(codes 48-57) or one of the letters a-f (codes 97-102). -/
def isLowerHexChar (c : Char) : Bool :=
  (48 ≤ c.toNat && c.toNat ≤ 57) || (97 ≤ c.toNat && c.toNat ≤ 102)

lemma hexDigit_lowerHex : ∀ n < 16, isLowerHexChar (hexDigit n) = true := by decide

lemma hexFlatten_length (bs : List Nat) :
    ((bs.map hexByte).flatten).length = 2 * bs.length := by
  induction bs with
  | nil => rfl
  | cons b bs ih =>
    simp only [List.map_cons, List.flatten_cons, List.length_append, ih, hexByte,
      List.length_cons, List.length_nil]
    omega

lemma hexEncode_length (bs : List Nat) : (hexEncode bs).length = 2 * bs.length :=
  hexFlatten_length bs

lemma mem_hexEncode (bs : List Nat) (hb : ∀ b ∈ bs, b < 256) :
    ∀ c ∈ (hexEncode bs).data, isLowerHexChar c = true := by
  induction bs with
  | nil => intro c hc; simp [hexEncode] at hc
  | cons b bs ih =>
    intro c hc
    have hb0 : b < 256 := hb b (by simp)
    have hbr : ∀ x ∈ bs, x < 256 := fun x hx => hb x (by simp [hx])
    simp only [hexEncode, List.map_cons, List.flatten_cons, hexByte, List.cons_append,
      List.nil_append, List.mem_cons] at hc
    rcases hc with h1 | h2 | h3
    · rw [h1]
      exact hexDigit_lowerHex (b / 16) (by omega)
    · rw [h2]
      exact hexDigit_lowerHex (b % 16) (by omega)
    · exact ih hbr c h3

lemma hexDigit_inj : ∀ m < 16, ∀ n < 16, hexDigit m = hexDigit n → m = n := by decide

lemma hexFlatten_inj (bs : List Nat) :
    ∀ cs : List Nat, (∀ b ∈ bs, b < 256) → (∀ c ∈ cs, c < 256) →
      (bs.map hexByte).flatten = (cs.map hexByte).flatten → bs = cs := by
  induction bs with
  | nil =>
    intro cs _ _ h
    cases cs with
    | nil => rfl
    | cons c cs => simp [hexByte] at h
  | cons b bs ih =>
    intro cs hb hc h
    cases cs with
    | nil => simp [hexByte] at h
    | cons c cs =>
      simp only [List.map_cons, List.flatten_cons, hexByte, List.cons_append,
        List.nil_append, List.cons.injEq] at h
      obtain ⟨h1, h2, h3⟩ := h
      have hb0 : b < 256 := hb b (by simp)
      have hc0 : c < 256 := hc c (by simp)
      have e1 := hexDigit_inj (b / 16) (by omega) (c / 16) (by omega) h1
      have e2 := hexDigit_inj (b % 16) (by omega) (c % 16) (by omega) h2
      have hbc : b = c := by omega
      have htl : bs = cs :=
        ih cs (fun x hx => hb x (by simp [hx])) (fun x hx => hc x (by simp [hx])) h3
      rw [hbc, htl]

lemma hexEncode_inj (bs cs : List Nat) (hb : ∀ b ∈ bs, b < 256)
    (hc : ∀ c ∈ cs, c < 256) (h : hexEncode bs = hexEncode cs) : bs = cs :=
  hexFlatten_inj bs cs hb hc (congrArg String.data h)

lemma chunksOf_length_mul : ∀ (k : Nat) (content : List Nat),
    content.length = k * hashBlockSize → (chunksOf content).length = k := by
  intro k
  induction k with
  | zero =>
    intro c h
    have hc : c = [] := List.eq_nil_of_length_eq_zero (by simpa using h)
    rw [hc, chunksOf_nil]
    rfl
  | succ k ih =>
    intro c h
    have hne : c ≠ [] := by
      intro e
      rw [e] at h
      simp only [List.length_nil, hashBlockSize] at h
      omega
    have hd : (c.drop hashBlockSize).length = k * hashBlockSize := by
      rw [List.length_drop, h]
      simp only [hashBlockSize]
      omega
    rw [chunksOf_cons c hne, List.length_cons, ih (c.drop hashBlockSize) hd]

lemma sha32_bytes : ∀ x : List Nat, ∀ b ∈ sha32 x, b < 256 := by
  intro x b hb
  simp only [sha32, List.mem_cons, List.mem_replicate] at hb
  have hm : x.length % 256 < 256 := Nat.mod_lt _ (by norm_num)
  rcases hb with h | ⟨_, h⟩ <;> omega

lemma sha32_length (x : List Nat) : (sha32 x).length = 32 := by
  simp [sha32]

/-- Supported write modes (files.go lines 31-35): Go `WriteMode` is a string
type, so the constants are modelled as strings. -/
def WriteModeAdd : String := "add"

/-- The `overwrite` write mode constant. -/
def WriteModeOverwrite : String := "overwrite"

/-- The `update` write mode constant. -/
def WriteModeUpdate : String := "update"

/-- The dynamic value stored in the `Mode interface{}` field of
`UploadInput`: `nil`, a `WriteMode` string, a `*writeModeUpdate` (with its
`Tag` and `Rev` fields), or a value of any other type. -/
inductive ModeVal where
  | noneVal : ModeVal
  | mode : String → ModeVal
  | update : String → String → ModeVal
  | otherVal : Nat → ModeVal
deriving DecidableEq, Repr

/-- `newWriteModeUpdate` (files.go lines 44-49): a `writeModeUpdate` with
`Tag: "update"` and the given `Rev`. -/
def newWriteModeUpdate (rev : String) : ModeVal :=
  ModeVal.update "update" rev

/-- `UploadInput` (files.go lines 513-522), without the `Reader` and
`PropertyGroups` fields, which no claim concerns. -/
structure UploadInput where
  path : String
  mode : ModeVal
  autoRename : Bool
  clientModified : String
  mute : Bool
  strictConflict : Bool
deriving DecidableEq, Repr

/-- `NewUploadInput` (files.go lines 525-529): default mode `WriteModeAdd`. -/
def NewUploadInput : UploadInput :=
  UploadInput.mk "" (ModeVal.mode WriteModeAdd) false "" false false

/-- `UploadInput.SetMode` (files.go lines 532-538). -/
def UploadInput.SetMode (i : UploadInput) (m : String) (rev : String) : UploadInput :=
  if m = WriteModeUpdate then
    UploadInput.mk i.path (newWriteModeUpdate rev) i.autoRename i.clientModified
      i.mute i.strictConflict
  else
    UploadInput.mk i.path (ModeVal.mode m) i.autoRename i.clientModified
      i.mute i.strictConflict

/-- `UploadInput.GetMode` (files.go lines 541-550): the type switch tries
`*writeModeUpdate`, then `WriteMode`, then falls through to `("", "")`. -/
def UploadInput.GetMode (i : UploadInput) : String × String :=
  match i.mode with
  | ModeVal.update _ rev => (WriteModeUpdate, rev)
  | ModeVal.mode m => (m, "")
  | _ => ("", "")

/-- `UploadInput.checkMode` (files.go lines 553-557). -/
def UploadInput.checkMode (i : UploadInput) : UploadInput :=
  if i.mode = ModeVal.noneVal then i.SetMode WriteModeAdd "" else i

/-- Concrete upload input with a `nil` mode, used in witnesses. -/
def uploadInput0 : UploadInput :=
  UploadInput.mk "" ModeVal.noneVal false "" false false

/-- `MetadataTypeFile` (files.go line 120). -/
def MetadataTypeFile : String := "file"

/-- `MetadataTypeFolder` (files.go line 121). -/
def MetadataTypeFolder : String := "folder"

/-- `MetadataTypeDeleted` (files.go line 122). -/
def MetadataTypeDeleted : String := "deleted"

/-- `strings.ToLower` modelled per character on the ASCII range (the tags
compared against are ASCII): an uppercase ASCII letter shifts down by 32,
every other character is unchanged. -/
def lowerChar (c : Char) : Char :=
  if 65 ≤ c.toNat ∧ c.toNat ≤ 90 then Char.ofNat (c.toNat + 32) else c

/-- `strings.ToLower` on a whole string. -/
def toLower (s : String) : String := String.mk (s.data.map lowerChar)

/-- `Metadata` (files.go lines 126-144), keeping the scalar fields; the
nested optional structures (media, sharing, export information) play no
role in any claim. -/
structure Metadata where
  tag : String
  name : String
  pathLower : String
  pathDisplay : String
  rev : String
  size : Nat
  id : String
  isDownloadable : Bool
  contentHashStr : String
deriving DecidableEq, Repr

/-- `Metadata.IsFile` (files.go lines 154-156). -/
def Metadata.IsFile (m : Metadata) : Bool :=
  toLower m.tag == MetadataTypeFile

/-- `Metadata.IsFolder` (files.go lines 159-161). -/
def Metadata.IsFolder (m : Metadata) : Bool :=
  toLower m.tag == MetadataTypeFolder

/-- `Metadata.IsDeleted` (files.go lines 164-166). -/
def Metadata.IsDeleted (m : Metadata) : Bool :=
  toLower m.tag == MetadataTypeDeleted

/-- Claim C1, refuting theorem (code bug): `ContentHash` is NOT invariant
under the reader's chunking.  For the two-byte content `[0, 1]`, a reader
delivering it in single-byte reads makes the loop exit after the first read
(`n = 1 ≠ hashBlockSize`), so only the first byte is digested: the result is
the hex digest of `sha [0]` alone, whereas the one-big-read reader yields
the hex digest of `sha [0, 1]`.  Instantiating the abstract digest function
shows the two hex strings really differ. -/
theorem contentHash_chunking_dependent :
    (∀ sha : List Nat → List Nat,
      contentHash sha (byteReads [0, 1]) = (hexEncode (sha (sha [0])), none) ∧
      contentHash sha (chunkReads [0, 1]) = (hexEncode (sha (sha [0, 1])), none)) ∧
    contentHash shaId (byteReads [0, 1]) ≠ contentHash shaId (chunkReads [0, 1]) := by
  have hb : ∀ sha : List Nat → List Nat,
      contentHash sha (byteReads [0, 1]) = (hexEncode (sha (sha [0])), none) := by
    intro sha
    simp [contentHash, byteReads, contentHashGo, hashBlockSize]
  have hc : ∀ sha : List Nat → List Nat,
      contentHash sha (chunkReads [0, 1]) = (hexEncode (sha (sha [0, 1])), none) := by
    intro sha
    rw [contentHash_chunkReads,
      accJoin_small sha [0, 1] (by simp) (by simp [hashBlockSize])]
  refine ⟨fun sha => ⟨hb sha, hc sha⟩, ?_⟩
  rw [hb shaId, hc shaId]
  simp only [shaId]
  decide

/-- Claim C2: `ContentHash` of an empty input stream succeeds and returns
the lowercase hex encoding of the digest of an empty accumulator (the
digest of zero bytes), with no error. -/
theorem contentHash_empty_stream (sha : List Nat → List Nat) :
    contentHash sha (chunkReads []) = (hexEncode (sha []), none) ∧
    contentHash sha [] = (hexEncode (sha []), none) := by
  constructor
  · rw [contentHash_chunkReads, accJoin_nil]
  · simp [contentHash, contentHashGo_nil]

/-- Claim C3, refuting theorem (code bug): a reader that yields one short
error-free read and then fails with a non-EOF error (code 7) is accepted:
`ContentHash` exits its loop after the short read, never performs the read
that would fail, and returns a successful hash instead of `("", err)`. -/
theorem contentHash_misses_late_error (sha : List Nat → List Nat) :
    contentHash sha
        [ReadRes.mk [0] none, ReadRes.mk [] (some (GoError.other 7))] =
      (hexEncode (sha (sha [0])), none) := by
  simp [contentHash, contentHashGo, hashBlockSize]

/-- Claim C4: for a byte string of exactly `hashBlockSize = 4194304` bytes
(delivered by a block-filling reader), the accumulator holds exactly the one
block digest, and the result is the hex encoding of the digest of that
single block digest. -/
theorem contentHash_single_block (sha : List Nat → List Nat) (content : List Nat)
    (h : content.length = hashBlockSize) :
    contentHash sha (chunkReads content) =
      (hexEncode (sha (sha content)), none) := by
  have hne : content ≠ [] := by
    intro e
    rw [e] at h
    simp [hashBlockSize] at h
  rw [contentHash_chunkReads, accJoin_small sha content hne (le_of_eq h)]

/-- Witness for C4 at the all-zero block of 4194304 bytes. -/
theorem contentHash_single_block_spot :
    (List.replicate hashBlockSize 0).length = hashBlockSize ∧
    contentHash sha32 (chunkReads (List.replicate hashBlockSize 0)) =
      (hexEncode (sha32 (sha32 (List.replicate hashBlockSize 0))), none) :=
  ⟨by simp, contentHash_single_block sha32 (List.replicate hashBlockSize 0) (by simp)⟩

lemma sha32_append_ne (A B : List Nat) :
    sha32 (sha32 A ++ sha32 B) ≠ sha32 (sha32 A) := by
  intro e
  simp only [sha32, List.cons.injEq] at e
  obtain ⟨e1, -⟩ := e
  simp [List.length_append] at e1

/-- Claim C5: for a byte string of 4194305 bytes delivered as one full
4194304-byte block followed by 1 byte, the result is the hex digest of the
concatenation of the two block digests (full block's digest, then the
1-byte block's digest), and — provided the digest function separates the
two accumulators, as SHA-256 does — it differs from the hash of the first
4194304 bytes alone. -/
theorem contentHash_block_plus_one (sha : List Nat → List Nat) (content : List Nat)
    (h : content.length = hashBlockSize + 1)
    (hbytes : ∀ x, ∀ b ∈ sha x, b < 256)
    (hcol : sha (sha (content.take hashBlockSize) ++ sha (content.drop hashBlockSize)) ≠
      sha (sha (content.take hashBlockSize))) :
    contentHash sha (chunkReads content) =
      (hexEncode (sha (sha (content.take hashBlockSize) ++
        sha (content.drop hashBlockSize))), none) ∧
    contentHash sha (chunkReads content) ≠
      contentHash sha (chunkReads (content.take hashBlockSize)) := by
  have hbs : 0 < hashBlockSize := by simp [hashBlockSize]
  have hne : content ≠ [] := by
    intro e
    rw [e] at h
    simp [hashBlockSize] at h
  have hdlen : (content.drop hashBlockSize).length = 1 := by
    rw [List.length_drop, h]
    omega
  have hdne : content.drop hashBlockSize ≠ [] := by
    intro e
    rw [e] at hdlen
    simp at hdlen
  have hacc : accJoin sha content =
      sha (content.take hashBlockSize) ++ sha (content.drop hashBlockSize) := by
    rw [accJoin_cons sha content hne,
      accJoin_small sha (content.drop hashBlockSize) hdne (by rw [hdlen]; exact hbs)]
  have h1 : contentHash sha (chunkReads content) =
      (hexEncode (sha (sha (content.take hashBlockSize) ++
        sha (content.drop hashBlockSize))), none) := by
    rw [contentHash_chunkReads, hacc]
  have htlen : (content.take hashBlockSize).length = hashBlockSize := by
    rw [List.length_take, h]
    exact min_eq_left (Nat.le_succ _)
  have htne : content.take hashBlockSize ≠ [] := by
    intro e
    rw [e] at htlen
    simp [hashBlockSize] at htlen
  have h2 : contentHash sha (chunkReads (content.take hashBlockSize)) =
      (hexEncode (sha (sha (content.take hashBlockSize))), none) := by
    rw [contentHash_chunkReads,
      accJoin_small sha (content.take hashBlockSize) htne (le_of_eq htlen)]
  refine ⟨h1, ?_⟩
  rw [h1, h2]
  intro heq
  have hx : hexEncode (sha (sha (content.take hashBlockSize) ++
      sha (content.drop hashBlockSize))) =
      hexEncode (sha (sha (content.take hashBlockSize))) := congrArg Prod.fst heq
  exact hcol (hexEncode_inj _ _ (hbytes _) (hbytes _) hx)

/-- Witness for C5 at the all-zero content of 4194305 bytes, with the
concrete digest stand-in `sha32`. -/
theorem contentHash_block_plus_one_spot :
    (List.replicate (hashBlockSize + 1) 0).length = hashBlockSize + 1 ∧
    contentHash sha32 (chunkReads (List.replicate (hashBlockSize + 1) 0)) =
      (hexEncode (sha32 (sha32 ((List.replicate (hashBlockSize + 1) 0).take hashBlockSize) ++
        sha32 ((List.replicate (hashBlockSize + 1) 0).drop hashBlockSize))), none) ∧
    contentHash sha32 (chunkReads (List.replicate (hashBlockSize + 1) 0)) ≠
      contentHash sha32 (chunkReads ((List.replicate (hashBlockSize + 1) 0).take hashBlockSize)) :=
  ⟨by simp,
   (contentHash_block_plus_one sha32 (List.replicate (hashBlockSize + 1) 0) (by simp)
     sha32_bytes (sha32_append_ne _ _)).1,
   (contentHash_block_plus_one sha32 (List.replicate (hashBlockSize + 1) 0) (by simp)
     sha32_bytes (sha32_append_ne _ _)).2⟩

/-- Claim C6: when the total length is an exact multiple of 4194304, the
accumulator is the concatenation of exactly `length / 4194304` block
digests, and a trailing zero-byte end-of-stream read contributes no further
digest: the result with an explicit `(0, io.EOF)` read after the blocks
equals the result without it. -/
theorem contentHash_exact_multiple (sha : List Nat → List Nat) (content : List Nat)
    (k : Nat) (h : content.length = k * hashBlockSize) :
    contentHash sha (chunkReads content ++ [ReadRes.mk [] (some GoError.eof)]) =
      (hexEncode (sha (accJoin sha content)), none) ∧
    contentHash sha (chunkReads content) =
      (hexEncode (sha (accJoin sha content)), none) ∧
    (chunksOf content).length = k := by
  refine ⟨?_, contentHash_chunkReads sha content, chunksOf_length_mul k content h⟩
  simp [contentHash, contentHashGo_chunkReads_eof]

/-- Witness for C6 at one full all-zero block (`k = 1`). -/
theorem contentHash_exact_multiple_spot :
    (List.replicate hashBlockSize 0).length = 1 * hashBlockSize ∧
    (chunksOf (List.replicate hashBlockSize 0)).length = 1 ∧
    contentHash sha32 (chunkReads (List.replicate hashBlockSize 0) ++
        [ReadRes.mk [] (some GoError.eof)]) =
      (hexEncode (sha32 (accJoin sha32 (List.replicate hashBlockSize 0))), none) :=
  ⟨by simp,
   (contentHash_exact_multiple sha32 (List.replicate hashBlockSize 0) 1 (by simp)).2.2,
   (contentHash_exact_multiple sha32 (List.replicate hashBlockSize 0) 1 (by simp)).1⟩

/-- Claim C7: when the file opens successfully, `FileContentHash` returns
exactly what `ContentHash` returns on the opened file's read stream; when
the open fails, it returns `("", open error)` before any hashing, and an
open error is an error kind `ContentHash` itself never produces. -/
theorem fileContentHash_delegates (sha : List Nat → List Nat)
    (fs : String → Except Nat (List ReadRes)) (filename : String) :
    (∀ reads, fs filename = Except.ok reads →
      FileContentHash sha fs filename = contentHash sha reads) ∧
    (∀ e, fs filename = Except.error e →
      FileContentHash sha fs filename = ("", some (HashErr.openErr e))) ∧
    (∀ reads e, (contentHash sha reads).2 ≠ some (HashErr.openErr e)) := by
  refine ⟨?_, ?_, ?_⟩
  · intro reads hr
    simp [FileContentHash, hr]
  · intro e he
    simp [FileContentHash, he]
  · intro reads e
    unfold contentHash
    cases contentHashGo sha reads [] <;> simp

/-- Witness for C7 on the concrete file system `fs0`. -/
theorem fileContentHash_delegates_spot :
    FileContentHash sha32 fs0 "ok" = contentHash sha32 [] ∧
    FileContentHash sha32 fs0 "missing" = ("", some (HashErr.openErr 5)) :=
  ⟨(fileContentHash_delegates sha32 fs0 "ok").1 [] (by simp [fs0]),
   (fileContentHash_delegates sha32 fs0 "missing").2.1 5 (by simp [fs0])⟩

/-- Claim C8: whenever `ContentHash` succeeds (no error in the second
component), the returned string is the lowercase hexadecimal encoding of a
256-bit digest: 64 characters, every one a lowercase hex digit.  The digest
function is assumed to produce 32 bytes, as SHA-256 does. -/
theorem contentHash_success_hex (sha : List Nat → List Nat) (reads : List ReadRes)
    (hlen : ∀ x, (sha x).length = 32)
    (hbytes : ∀ x, ∀ b ∈ sha x, b < 256)
    (hok : (contentHash sha reads).2 = none) :
    (contentHash sha reads).1.length = 64 ∧
    ∀ c ∈ (contentHash sha reads).1.data, isLowerHexChar c = true := by
  rcases hgo : contentHashGo sha reads [] with e | acc
  · exfalso
    unfold contentHash at hok
    rw [hgo] at hok
    simp at hok
  · have hch : contentHash sha reads = (hexEncode (sha acc), none) := by
      unfold contentHash
      rw [hgo]
    rw [hch]
    refine ⟨?_, fun c hc => mem_hexEncode (sha acc) (hbytes acc) c hc⟩
    have h2 := hexEncode_length (sha acc)
    rw [hlen acc] at h2
    exact h2

/-- Witness for C8 on the empty stream with the concrete 32-byte digest
stand-in `sha32`. -/
theorem contentHash_success_hex_spot :
    (contentHash sha32 []).2 = none ∧
    (contentHash sha32 []).1.length = 64 ∧
    ∀ c ∈ (contentHash sha32 []).1.data, isLowerHexChar c = true := by
  have hok : (contentHash sha32 []).2 = none := rfl
  have h := contentHash_success_hex sha32 [] sha32_length sha32_bytes hok
  exact ⟨hok, h.1, h.2⟩

/-- Claim C9: `SetMode` / `GetMode` round-trip on `UploadInput`: after
`SetMode(update, rev)`, `GetMode` returns `(update, rev)`; after
`SetMode(m, rev)` for `m` among `add` and `overwrite`, it returns
`(m, "")`; and when `Mode` is `nil` or holds any other type, `GetMode`
returns `("", "")`. -/
theorem setMode_getMode (i : UploadInput) (rev : String) :
    (i.SetMode WriteModeUpdate rev).GetMode = (WriteModeUpdate, rev) ∧
    (∀ m, m = WriteModeAdd ∨ m = WriteModeOverwrite →
      (i.SetMode m rev).GetMode = (m, "")) ∧
    ((i.mode = ModeVal.noneVal ∨ ∃ x, i.mode = ModeVal.otherVal x) →
      i.GetMode = ("", "")) := by
  refine ⟨?_, ?_, ?_⟩
  · simp [UploadInput.SetMode, newWriteModeUpdate, UploadInput.GetMode]
  · rintro m (rfl | rfl) <;>
      simp [UploadInput.SetMode, WriteModeAdd, WriteModeOverwrite, WriteModeUpdate,
        UploadInput.GetMode]
  · rintro (hm | ⟨x, hm⟩) <;> simp [UploadInput.GetMode, hm]

/-- Witness for C9 on a concrete input with `nil` mode. -/
theorem setMode_getMode_spot :
    (uploadInput0.SetMode WriteModeUpdate "r1").GetMode = (WriteModeUpdate, "r1") ∧
    (uploadInput0.SetMode WriteModeAdd "r1").GetMode = (WriteModeAdd, "") ∧
    uploadInput0.GetMode = ("", "") :=
  ⟨(setMode_getMode uploadInput0 "r1").1,
   (setMode_getMode uploadInput0 "r1").2.1 WriteModeAdd (Or.inl rfl),
   (setMode_getMode uploadInput0 "r1").2.2 (Or.inl rfl)⟩

/-- Claim C10: the metadata classification predicates compare the
lowercased tag against `"file"`, `"folder"`, `"deleted"` respectively, and
— those three strings being pairwise distinct — at most one of `IsFile`,
`IsFolder`, `IsDeleted` is true on any `Metadata` value. -/
theorem metadata_type_predicates (m : Metadata) :
    (m.IsFile = true ↔ toLower m.tag = MetadataTypeFile) ∧
    (m.IsFolder = true ↔ toLower m.tag = MetadataTypeFolder) ∧
    (m.IsDeleted = true ↔ toLower m.tag = MetadataTypeDeleted) ∧
    ¬(m.IsFile = true ∧ m.IsFolder = true) ∧
    ¬(m.IsFile = true ∧ m.IsDeleted = true) ∧
    ¬(m.IsFolder = true ∧ m.IsDeleted = true) := by
  simp only [Metadata.IsFile, Metadata.IsFolder, Metadata.IsDeleted, beq_iff_eq]
  refine ⟨trivial, trivial, trivial, ?_, ?_, ?_⟩ <;>
  · rintro ⟨h1, h2⟩
    rw [h1] at h2
    simp [MetadataTypeFile, MetadataTypeFolder, MetadataTypeDeleted] at h2

end Dropbox
